import Mathlib

/-!
# groundgopher: combination generation, execution and aggregation

A shallow embedding of `cartesian.go` (`Iter`, `iterate`) and of
`groundgopher.go` (`requestWorker`, `Run`, `Report.Summary`).

* User supplied `Setup` and `Validator` functions receive a pointer to the
  per-combination `Ctx` (and `Setup` a pointer to `In`), so they are embedded
  as state-passing functions.
* The outside world of one worker iteration (the HTTP exchange, the clock
  around it and the random identifier) is an injected `Env`.
* Goroutines and unbuffered channels are embedded as an interleaving
  transition system: a schedule is a list of `Action`s, each of which is one
  atomic move of one goroutine (or one rendezvous on a channel). The function
  `Iter` is the start state together with the move `root` (its direct call of
  `iterate`); the goroutines it starts are the moves `iter`; the loop of
  `requestWorker` is the rendezvous `receive` followed by `collect`, and
  `exit`; the drain loop of `Run` is `collect` and `finish`.
-/

namespace gg

/-! ## Data model (groundgopher.go, lines 73-75 and 222-299) -/

/-- The type `Ctx`: the per-combination string cache. -/
structure Ctx where
  cache : List (String × String)
  deriving DecidableEq, Repr

/-- The method `(*Ctx).Set`, a map assignment. -/
def Ctx.Set (c : Ctx) (k v : String) : Ctx :=
  { cache := (k, v) :: c.cache.filter (fun p => p.1 != k) }

/-- The method `(*Ctx).Get`, a map lookup with the zero value for a missing key. -/
def Ctx.Get (c : Ctx) (k : String) : String :=
  (c.cache.lookup k).getD ""

/-- The part of `http.Request` that the worker initialises. -/
structure Request where
  URL : String
  Header : List (String × String)
  Body : Option String
  deriving DecidableEq, Repr

/-- The part of `http.Client` a setup step may configure; the zero value is `http.Client{}`. -/
structure Client where
  Timeout : Int := 0
  deriving DecidableEq, Repr

/-- The type `In`: the outbound request under construction. -/
structure In where
  Req : Request
  Client : Client
  deriving DecidableEq, Repr

/-- The `*http.Response` handed back by `Client.Do`. -/
structure Response where
  StatusCode : Int
  Body : String
  deriving DecidableEq, Repr

/-- The type `Out`: the inbound response snapshot. -/
structure Out where
  Resp : Response
  Body : String
  StatusCode : Int
  Duration : Int
  UserAgent : String
  deriving DecidableEq, Repr

/-- The type `Result`. -/
structure Result where
  Name : String
  Failed : Bool
  WantedFail : Bool
  Reason : String
  deriving DecidableEq, Repr

/-- The type `Case`. `Setup func(*Ctx, *In)` and `Validator func(*Ctx, Out) Result`
mutate through their pointer arguments, hence the returned `Ctx` (and `In`). -/
structure Case where
  Name : String
  Disabled : Bool
  Setup : Ctx → In → Ctx × In
  Validator : Ctx → Out → Ctx × Result
  WantFail : Bool

/-- The type `Variable`. -/
structure Variable where
  Name : String
  Cases : List Case

/-- The type `Run`. `Duration` is a `time.Duration` (an int64 count of nanoseconds). -/
structure Run where
  Cases : List String
  Results : List Result
  Body : String
  StatusCode : Int
  Duration : Int
  WantFail : Bool
  Failed : Bool
  deriving DecidableEq, Repr

/-- The type `Report`. -/
structure Report where
  Amount : Int
  Runs : List Run
  Successes : Int
  Fails : Int
  Failed : Bool
  TotalTime : Int
  deriving DecidableEq, Repr

/-- The type `GroundGopher`, without its cache and its wait group (the wait
group is the set of live workers of the transition system below). The field
`vars` is the field `variables` of the source. -/
structure GroundGopher where
  apiURL : String
  host : String
  vars : List Variable
  gophers : Int
  verbose : Bool

/-- The option `WithWorkers`, applied: it sets the pool size. -/
def WithWorkers (i : Int) (g : GroundGopher) : GroundGopher :=
  { g with gophers := i }

/-- The injected outside world of one worker iteration: the identifier source
behind `randID()` (which may depend on the participant names recorded so far,
not on scheduling), `in.Client.Do` (`none` is a non-nil `err`), the
`time.Since(before)` measured around it, and `ioutil.ReadAll`. -/
structure Env where
  randID : List String → String
  clientDo : In → Option Response
  elapsed : In → Int
  readAll : Response → Option String

/-- The calls a worker iteration makes to user code and to the network, with
the position of the Case in the Combination. -/
inductive Call where
  | setup (i : Nat)
  | request
  | validate (i : Nat)
  deriving DecidableEq, Repr

/-! ## Machine integers -/

/-- Two's complement wrap-around of int64 arithmetic. -/
def wrapInt64 (x : Int) : Int :=
  (x + 2 ^ 63) % 2 ^ 64 - 2 ^ 63

/-! ## One iteration of `requestWorker` (groundgopher.go, lines 96-177) -/

/-- The local variables of one worker iteration. -/
structure Local where
  c : Ctx
  inp : In
  run : Run
  calls : List Call

/-- `http.Header.Set`: replace the values stored under the key. -/
def headerSet (h : List (String × String)) (k v : String) : List (String × String) :=
  (k, v) :: h.filter (fun p => p.1 != k)

/-- The loop of lines 118-129, from position `i` on. The Boolean is the local `disabled`. -/
def setupLoop : List Case → Nat → Local → Local × Bool
  | [], _, st => (st, false)
  | cas :: rest, i, st =>
    if cas.Disabled then (st, true)
    else
      let r := cas.Setup st.c st.inp
      setupLoop rest (i + 1)
        { c := r.1
          inp := r.2
          run := { st.run with
            Cases := st.run.Cases ++ [cas.Name]
            WantFail := if cas.WantFail then true else st.run.WantFail }
          calls := st.calls ++ [Call.setup i] }

/-- The loop of lines 163-174, from position `i` on. -/
def validateLoop (out : Out) : List Case → Nat → Local → Local
  | [], _, st => st
  | cas :: rest, i, st =>
    let r := cas.Validator st.c out
    let res : Result := { r.2 with Name := cas.Name, WantedFail := cas.WantFail }
    let st1 : Local :=
      { st with
        c := r.1
        run := { st.run with Results := st.run.Results ++ [res] }
        calls := st.calls ++ [Call.validate i] }
    if res.Failed && cas.WantFail then st1
    else if res.Failed && !cas.WantFail then
      validateLoop out rest (i + 1) { st1 with run := { st1.run with Failed := true } }
    else validateLoop out rest (i + 1) st1

/-- The locals as prepared on lines 99-116: an empty Run, an empty cache and a
request to the base URL with no header and no body. -/
def Local.fresh (g : GroundGopher) : Local :=
  { c := { cache := [] }
    inp := { Client := {}, Req := { Header := [], URL := g.apiURL, Body := none } }
    run := { Cases := [], Results := [], Body := "", StatusCode := 0, Duration := 0,
             WantFail := false, Failed := false }
    calls := [] }

/-- Line 135: the user agent of the iteration. -/
def userAgent (env : Env) (st : Local) : String :=
  "groundgopher-" ++ env.randID st.run.Cases

/-- Line 136: the request as it is sent. -/
def outbound (env : Env) (st : Local) : In :=
  { st.inp with
    Req := { st.inp.Req with Header := headerSet st.inp.Req.Header "User-Agent" (userAgent env st) } }

/-- Lines 138-158: the HTTP exchange and the snapshot `out` built from it;
`none` when `Client.Do` or `ReadAll` returns an error (the two `continue`). -/
def exchange (env : Env) (inp : In) (ua : String) : Option Out :=
  let timeTaken := env.elapsed inp
  match env.clientDo inp with
  | none => none
  | some resp =>
    match env.readAll resp with
    | none => none
    | some body =>
      some { Resp := resp, Body := body, StatusCode := resp.StatusCode, Duration := timeTaken,
             UserAgent := ua }

/-- The body of the `for cases := range caseCh` loop of `requestWorker`: the Run
sent on `runCh` (`none` when the iteration ends in `continue`) and the calls made. -/
def requestWorker (g : GroundGopher) (env : Env) (cases : List Case) : Option Run × List Call :=
  let p := setupLoop cases 0 (Local.fresh g)
  if p.2 then (none, p.1.calls)
  else
    let inp := outbound env p.1
    match exchange env inp (userAgent env p.1) with
    | none => (none, p.1.calls ++ [Call.request])
    | some out =>
      let st : Local :=
        { c := p.1.c
          inp := inp
          run := { p.1.run with
            Duration := out.Duration, StatusCode := out.StatusCode, Body := out.Body }
          calls := p.1.calls ++ [Call.request] }
      let v := validateLoop out cases 0 st
      (some v.run, v.calls)

/-! ## The aggregation loop of `Run` (groundgopher.go, lines 183 and 200-211) -/

/-- The zero value `var report Report`. -/
def Report.zero : Report :=
  { Amount := 0, Runs := [], Successes := 0, Fails := 0, Failed := false, TotalTime := 0 }

/-- The body of the `for run := range runCh` loop. `Amount`, `Successes` and
`Fails` never exceed `len(report.Runs)`, which is an `int`; `TotalTime` is an
int64 sum. -/
def aggregateStep (report : Report) (run : Run) : Report :=
  let report : Report :=
    if run.Failed && !run.WantFail then
      { report with Failed := true, Fails := report.Fails + 1 }
    else
      { report with Successes := report.Successes + 1 }
  { report with
    Runs := report.Runs ++ [run]
    Amount := report.Amount + 1
    TotalTime := wrapInt64 (report.TotalTime + run.Duration) }

/-- The whole drain loop over the Runs received, in receive order. -/
def aggregate (runs : List Run) : Report :=
  runs.foldl aggregateStep Report.zero

/-! ## `Report.Summary` (groundgopher.go, lines 301-308) -/

/-- The method `Report.Summary`. `Except.error` is a run-time panic.
`durString` is `time.Duration.String` of the standard library. -/
def Report.Summary (durString : Int → String) (r : Report) : Except String String :=
  if !r.Failed then
    if r.Amount = 0 then
      Except.error "runtime error: integer divide by zero"
    else
      let avgRespTime := wrapInt64 (Int.tdiv r.TotalTime r.Amount)
      let avgString := durString avgRespTime
      Except.ok ("Completed " ++ toString r.Amount ++ " requests in " ++ durString r.TotalTime
        ++ ", average time: " ++ avgString)
  else
    Except.ok ("Completed " ++ toString r.Amount ++ " (" ++ toString r.Fails
      ++ " failed) requests in " ++ durString r.TotalTime)

/-! ## `Iter` and `iterate` (cartesian.go) -/

/-- The arguments of one call of `iterate`: the accumulated `result` and the
remaining `params`. -/
abbrev Task := List Case × List Variable

/-- What one call of `iterate` does: it either sends `result` on the channel
(line 27) or starts one goroutine per Case of the first parameter (lines 33-40). -/
inductive IterAct where
  | send (result : List Case)
  | spawn (children : List Task)

/-- The function `iterate`. -/
def iterate (result : List Case) (params : List Variable) : IterAct :=
  match params with
  | [] => IterAct.send result
  | p :: params => IterAct.spawn (p.Cases.map (fun cas => (result ++ [cas], params)))

/-! ## The goroutines of `Run` as a transition system -/

/-- Where a `requestWorker` goroutine stands: blocked at `range caseCh`,
blocked at `runCh <- run`, or returned. -/
inductive Worker where
  | receiving
  | sending (run : Run)
  | done
  deriving DecidableEq, Repr

/-- Where the goroutine that called `Run` stands: inside `Iter` at the direct
(not `go`) call `iterate(&wg, c, []Case{}, params...)` of line 13, in the loop
`for run := range runCh`, or past `return report`. -/
inductive Main where
  | inIter (result : List Case) (params : List Variable)
  | draining
  | returned

/-- The state of all goroutines. `iters` are the live `go iterate(...)`
goroutines (the wait group of `Iter` counts them, plus the direct call while
it runs). `received` is a history variable: the Combinations received from
`caseCh` so far, each with the index of the worker that received it. -/
structure Sys where
  main : Main
  iters : List Task
  workers : List Worker
  report : Report
  received : List (Nat × List Case)

/-- One scheduling choice. `root w` and `iter i w` let the direct call,
respectively goroutine `i`, run `iterate`; should it send, worker `w` is the
receiver. `collect w` is the rendezvous on `runCh` with worker `w`. `exit w`
lets worker `w` see `caseCh` closed. `finish` lets the drain loop see `runCh`
closed. -/
inductive Action where
  | root (w : Nat)
  | iter (i w : Nat)
  | collect (w : Nat)
  | exit (w : Nat)
  | finish
  deriving DecidableEq, Repr

/-- The state on entry to `Run`: `Iter` has made the channel and calls
`iterate` directly; no worker exists yet (they are started on lines 188-191,
after `Iter` has returned). -/
def GroundGopher.start (g : GroundGopher) : Sys :=
  { main := Main.inIter [] g.vars, iters := [], workers := [],
    report := Report.zero, received := [] }

/-- A rendezvous on the unbuffered `caseCh`: worker `w`, blocked at
`range caseCh`, receives `cases` and runs one iteration of its loop. -/
def Sys.receive (g : GroundGopher) (env : Env) (s : Sys) (w : Nat) (cases : List Case) :
    Option Sys :=
  match s.workers.get? w with
  | some Worker.receiving =>
    let next : Worker :=
      match (requestWorker g env cases).1 with
      | none => Worker.receiving
      | some run => Worker.sending run
    some { s with workers := s.workers.set w next, received := s.received ++ [(w, cases)] }
  | _ => none

/-- Whether every worker has returned, so that `gg.wg.Wait()` returns and `runCh` is closed. -/
def allDone (ws : List Worker) : Bool :=
  ws.all (fun w => decide (w = Worker.done))

/-- One step of the system; `none` when the chosen move is not enabled.

* `root`: the direct call of line 13 either blocks in its send until a worker
  receives, or starts its goroutines and returns; `Iter` then returns the
  channel and `Run` starts `gg.gophers` workers (lines 188-191) and enters the
  drain loop.
* `iter`: a goroutine either hands its `result` to a receiving worker or is
  replaced by the goroutines it starts; in both cases it is done afterwards.
* `exit`: `caseCh` is closed once the wait group of `Iter` is at zero, that is
  once the direct call has returned and no `iterate` goroutine is left.
* `finish`: `runCh` is closed once every worker has returned. -/
def step (g : GroundGopher) (env : Env) (s : Sys) : Action → Option Sys
  | Action.root w =>
    match s.main with
    | Main.inIter result params =>
      match iterate result params with
      | IterAct.send r =>
        (s.receive g env w r).map (fun s1 =>
          { s1 with main := Main.draining
                    workers := s1.workers ++ List.replicate g.gophers.toNat Worker.receiving })
      | IterAct.spawn children =>
        some { s with main := Main.draining
                      iters := s.iters ++ children
                      workers := s.workers ++ List.replicate g.gophers.toNat Worker.receiving }
    | _ => none
  | Action.iter i w =>
    match s.iters.get? i with
    | none => none
    | some t =>
      match iterate t.1 t.2 with
      | IterAct.send r =>
        (s.receive g env w r).map (fun s1 => { s1 with iters := s1.iters.eraseIdx i })
      | IterAct.spawn children => some { s with iters := s.iters.eraseIdx i ++ children }
  | Action.collect w =>
    match s.main, s.workers.get? w with
    | Main.draining, some (Worker.sending run) =>
      some { s with report := aggregateStep s.report run
                    workers := s.workers.set w Worker.receiving }
    | _, _ => none
  | Action.exit w =>
    match s.main with
    | Main.inIter _ _ => none
    | _ =>
      match s.iters, s.workers.get? w with
      | [], some Worker.receiving => some { s with workers := s.workers.set w Worker.done }
      | _, _ => none
  | Action.finish =>
    match s.main with
    | Main.draining => if allDone s.workers then some { s with main := Main.returned } else none
    | _ => none

/-- Running a schedule. -/
def exec (g : GroundGopher) (env : Env) : Sys → List Action → Option Sys
  | s, [] => some s
  | s, a :: rest => (step g env s a).bind (fun s1 => exec g env s1 rest)

/-- The method `GroundGopher.Run` under a schedule: the Report it returns, if
the schedule can be run and leads past `return report`. -/
def GroundGopher.Run (g : GroundGopher) (env : Env) (sched : List Action) : Option Report :=
  match exec g env g.start sched with
  | some s =>
    match s.main with
    | Main.returned => some s.report
    | _ => none
  | none => none

/-! ## Reference definitions for the statements -/

/-- The cartesian product of the Variables, one Case per Variable in declaration order. -/
def cartesian : List Variable → List (List Case)
  | [] => [[]]
  | p :: rest => p.Cases.flatMap (fun cas => (cartesian rest).map (fun comb => cas :: comb))

/-- Whether a Combination contains a disabled Case. -/
def hasDisabled (cases : List Case) : Bool :=
  cases.any (fun cas => cas.Disabled)

/-- Whether a Combination contains a Case marked `wantFail`. -/
def hasWantFail (cases : List Case) : Bool :=
  cases.any (fun cas => cas.WantFail)

/-- The number of Cases that precede the first disabled Case. -/
def beforeDisabled (cases : List Case) : Nat :=
  (cases.takeWhile (fun cas => !cas.Disabled)).length

/-- The Results of invoking the validator of every Case in order, each on the
`Ctx` left by the one before, with `Name` and `WantedFail` filled in as on
lines 165-166. -/
def validateAll (out : Out) : List Case → Ctx → List Result
  | [], _ => []
  | cas :: rest, c =>
    let r := cas.Validator c out
    { r.2 with Name := cas.Name, WantedFail := cas.WantFail } :: validateAll out rest r.1

/-- The position of the first Result that is failed and wanted to fail (the
length of the list when there is none). -/
def firstWantedFail (rs : List Result) : Nat :=
  rs.findIdx (fun r => r.Failed && r.WantedFail)

/-- The positions of the validators among the calls made. -/
def validateCalls (calls : List Call) : List Nat :=
  calls.filterMap (fun cl => match cl with
    | Call.validate i => some i
    | _ => none)

/-- The positions of the setup functions among the calls made. -/
def setupCalls (calls : List Call) : List Nat :=
  calls.filterMap (fun cl => match cl with
    | Call.setup i => some i
    | _ => none)

/-- The Run one worker iteration sends for a Combination, if any. -/
def runOf (g : GroundGopher) (env : Env) (cases : List Case) : Option Run :=
  (requestWorker g env cases).1

/-- The locals of a worker iteration after the setup loop. -/
def prepared (g : GroundGopher) (cases : List Case) : Local :=
  (setupLoop cases 0 (Local.fresh g)).1

/-- The snapshot `out` of a worker iteration, if the request completes. -/
def snapshot (g : GroundGopher) (env : Env) (cases : List Case) : Option Out :=
  exchange env (outbound env (prepared g cases)) (userAgent env (prepared g cases))

/-- The Results every validator of the Combination would give on `out`. -/
def allResults (g : GroundGopher) (cases : List Case) (out : Out) : List Result :=
  validateAll out cases (prepared g cases).c

/-- No transport error: `Client.Do` and `ReadAll` succeed on every request. -/
def NoTransportError (env : Env) : Prop :=
  ∀ inp ua, ∃ out, exchange env inp ua = some out

/-- The Combinations a call of `iterate` stands for: `result` extended by every
element of the cartesian product of `params`. -/
def leaves (t : Task) : List (List Case) :=
  (cartesian t.2).map (fun comb => t.1 ++ comb)

/-- The Combinations not yet handed to a worker. -/
def Sys.pending (s : Sys) : List (List Case) :=
  (match s.main with
    | Main.inIter result params => leaves (result, params)
    | _ => []) ++ s.iters.flatMap leaves

/-- The Runs that workers hold at `runCh <- run`. -/
def held (ws : List Worker) : List Run :=
  ws.filterMap (fun w => match w with
    | Worker.sending run => some run
    | _ => none)

/-- Whether `Run` has returned in a state. -/
def Sys.returned (s : Sys) : Bool :=
  match s.main with
  | Main.returned => true
  | _ => false

/-- What holds in every state a schedule can reach from `g.start`. -/
structure Inv (g : GroundGopher) (env : Env) (s : Sys) : Prop where
  combos : (s.received.map Prod.snd ++ s.pending).Perm (cartesian g.vars)
  runs : (s.report.Runs ++ held s.workers).Perm
    ((s.received.map Prod.snd).filterMap (runOf g env))
  report : s.report = aggregate s.report.Runs
  early : ∀ result params, s.main = Main.inIter result params → s = g.start
  pool : (∀ result params, s.main ≠ Main.inIter result params) →
    s.workers.length = g.gophers.toNat
  alive : s.iters ≠ [] → ∀ w ∈ s.workers, w ≠ Worker.done
  idle : s.workers = [] → s.received = []
  fin : s.returned = true → allDone s.workers = true

/-- The number of moves a call of `iterate` on `params` can still cause. -/
def treeWeight : List Variable → Nat
  | [] => 2
  | p :: rest => 1 + p.Cases.length * treeWeight rest

/-- The number of moves a worker can still make on its own. -/
def Worker.weight : Worker → Nat
  | Worker.receiving => 1
  | Worker.sending _ => 2
  | Worker.done => 0

/-- A bound on the number of moves left in a state. -/
def Sys.weight (g : GroundGopher) (s : Sys) : Nat :=
  (match s.main with
    | Main.inIter _ params => treeWeight params + g.gophers.toNat + 1
    | Main.draining => 1
    | Main.returned => 0)
  + (s.iters.map (fun t => treeWeight t.2)).sum
  + (s.workers.map Worker.weight).sum

/-! ## Sample inputs -/

/-- A server that answers every request with status 200 after 5 ns. -/
def sampleEnv : Env :=
  { randID := fun _ => "0123456789"
    clientDo := fun _ => some { StatusCode := 200, Body := "ok" }
    elapsed := fun _ => 5
    readAll := fun resp => some resp.Body }

/-- The snapshot every worker iteration builds under `sampleEnv`. -/
def sampleOut : Out :=
  { Resp := { StatusCode := 200, Body := "ok" }, Body := "ok", StatusCode := 200, Duration := 5,
    UserAgent := "groundgopher-0123456789" }

/-- A Case with a setup that changes nothing and a validator that fails or not as told. -/
def sampleCase (name : String) (disabled wantFail fails : Bool) : Case :=
  { Name := name
    Disabled := disabled
    Setup := fun c inp => (c, inp)
    Validator := fun c _ =>
      (c, { Name := "", Failed := fails, WantedFail := false,
            Reason := if fails then "unexpected status" else "" })
    WantFail := wantFail }

/-- A runner for the given Variables and pool size. -/
def sampleGopher (vars : List Variable) (n : Int) : GroundGopher :=
  { apiURL := "http://localhost", host := "http://localhost", vars := vars, gophers := n,
    verbose := false }

/-- An enabled Case followed by a disabled one. -/
def disabledSecond : List Case :=
  [sampleCase "get" false false false, sampleCase "off" true false false]

/-- A passing Case, a Case that wants to fail and fails, and a failing Case. -/
def wantedFailureSecond : List Case :=
  [sampleCase "get" false false false, sampleCase "no-token" false true true,
   sampleCase "late" false false true]

/-- A failing Case that does not want to fail, then a passing Case that wants to fail. -/
def failureWithWantFail : List Case :=
  [sampleCase "get" false false true, sampleCase "no-token" false true false]

/-- A single failing Case that does not want to fail. -/
def plainFailure : List Case :=
  [sampleCase "get" false false true]

/-- The Run of `failureWithWantFail` under `sampleEnv`. -/
def failureWithWantFailRun : Run :=
  { Cases := ["get", "no-token"]
    Results := [{ Name := "get", Failed := true, WantedFail := false, Reason := "unexpected status" },
                { Name := "no-token", Failed := false, WantedFail := true, Reason := "" }]
    Body := "ok", StatusCode := 200, Duration := 5, WantFail := true, Failed := true }

/-- One Variable with one enabled, passing Case. -/
def oneVariable : List Variable :=
  [{ Name := "method", Cases := [sampleCase "get" false false false] }]

/-- The Run of the only Combination of `oneVariable` under `sampleEnv`. -/
def oneVariableRun : Run :=
  { Cases := ["get"]
    Results := [{ Name := "get", Failed := false, WantedFail := false, Reason := "" }]
    Body := "ok", StatusCode := 200, Duration := 5, WantFail := false, Failed := false }

/-- The same server as `sampleEnv`, measured at 7 ns per request. -/
def slowEnv : Env :=
  { sampleEnv with elapsed := fun _ => 7 }

/-- The same server as `sampleEnv`, with another random identifier. -/
def otherIdEnv : Env :=
  { sampleEnv with randID := fun _ => "abcdefghij" }

/-- The Run of the only Combination of `oneVariable` under `slowEnv`. -/
def oneVariableSlowRun : Run :=
  { oneVariableRun with Duration := 7 }

/-- The Run of a Combination of passing Cases with the given names under `sampleEnv`. -/
def passedRun (names : List String) : Run :=
  { Cases := names
    Results := names.map (fun n => { Name := n, Failed := false, WantedFail := false, Reason := "" })
    Body := "ok", StatusCode := 200, Duration := 5, WantFail := false, Failed := false }

/-- Variables with 2 and 3 enabled Cases. -/
def twoByThree : List Variable :=
  [{ Name := "auth", Cases := [sampleCase "a1" false false false, sampleCase "a2" false false false] },
   { Name := "method", Cases := [sampleCase "m1" false false false, sampleCase "m2" false false false,
                                 sampleCase "m3" false false false] }]

/-! ## Facts about the aggregation loop -/

theorem wrapInt64_zero : wrapInt64 0 = 0 := by
  decide

theorem wrapInt64_add_left (a b : Int) : wrapInt64 (wrapInt64 a + b) = wrapInt64 (a + b) := by
  unfold wrapInt64
  have h : (a + 2 ^ 63) % 2 ^ 64 - 2 ^ 63 + b + 2 ^ 63 = (a + 2 ^ 63) % 2 ^ 64 + b := by ring
  rw [h, Int.emod_add_emod]
  have h2 : a + 2 ^ 63 + b = a + b + 2 ^ 63 := by ring
  rw [h2]

theorem aggregate_nil : aggregate [] = Report.zero := rfl

theorem aggregate_snoc (runs : List Run) (run : Run) :
    aggregate (runs ++ [run]) = aggregateStep (aggregate runs) run := by
  simp [aggregate, List.foldl_append]

theorem aggregateStep_Runs (report : Report) (run : Run) :
    (aggregateStep report run).Runs = report.Runs ++ [run] := by
  unfold aggregateStep
  split <;> rfl

theorem aggregateStep_Amount (report : Report) (run : Run) :
    (aggregateStep report run).Amount = report.Amount + 1 := by
  unfold aggregateStep
  split <;> rfl

theorem aggregateStep_TotalTime (report : Report) (run : Run) :
    (aggregateStep report run).TotalTime = wrapInt64 (report.TotalTime + run.Duration) := by
  unfold aggregateStep
  split <;> rfl

theorem aggregateStep_counted_fail (report : Report) (run : Run)
    (h : (run.Failed && !run.WantFail) = true) :
    (aggregateStep report run).Fails = report.Fails + 1 ∧
    (aggregateStep report run).Successes = report.Successes ∧
    (aggregateStep report run).Failed = true := by
  unfold aggregateStep
  simp [h]

theorem aggregateStep_counted_success (report : Report) (run : Run)
    (h : (run.Failed && !run.WantFail) = false) :
    (aggregateStep report run).Fails = report.Fails ∧
    (aggregateStep report run).Successes = report.Successes + 1 ∧
    (aggregateStep report run).Failed = report.Failed := by
  unfold aggregateStep
  simp [h]

theorem aggregate_Runs (runs : List Run) : (aggregate runs).Runs = runs := by
  induction runs using List.reverseRecOn with
  | nil => rfl
  | append_singleton l a ih => rw [aggregate_snoc, aggregateStep_Runs, ih]

theorem aggregate_Amount (runs : List Run) : (aggregate runs).Amount = (runs.length : Int) := by
  induction runs using List.reverseRecOn with
  | nil => rfl
  | append_singleton l a ih => rw [aggregate_snoc, aggregateStep_Amount, ih]; simp

theorem aggregate_TotalTime (runs : List Run) :
    (aggregate runs).TotalTime = wrapInt64 ((runs.map Run.Duration).sum) := by
  induction runs using List.reverseRecOn with
  | nil => exact wrapInt64_zero.symm
  | append_singleton l a ih =>
    rw [aggregate_snoc, aggregateStep_TotalTime, ih, wrapInt64_add_left]
    simp

theorem aggregate_counts (runs : List Run) :
    (aggregate runs).Fails = ((runs.filter (fun r => r.Failed && !r.WantFail)).length : Int) ∧
    (aggregate runs).Successes
      = ((runs.filter (fun r => !(r.Failed && !r.WantFail))).length : Int) ∧
    ((aggregate runs).Failed = true ↔ 0 < (aggregate runs).Fails) := by
  induction runs using List.reverseRecOn with
  | nil => simp [aggregate_nil, Report.zero]
  | append_singleton l a ih =>
    obtain ⟨h1, h2, h3⟩ := ih
    rw [aggregate_snoc]
    cases hc : (a.Failed && !a.WantFail)
    · obtain ⟨e1, e2, e3⟩ := aggregateStep_counted_success (aggregate l) a hc
      have f1 : List.filter (fun r => r.Failed && !r.WantFail) [a] = [] := by
        simp [List.filter, hc]
      have f2 : List.filter (fun r => !(r.Failed && !r.WantFail)) [a] = [a] := by
        simp [List.filter, hc]
      rw [e1, e2, e3, h1, h2, List.filter_append, List.filter_append, f1, f2]
      refine ⟨by simp, by simp, ?_⟩
      rw [h3, h1]
    · obtain ⟨e1, e2, e3⟩ := aggregateStep_counted_fail (aggregate l) a hc
      have f1 : List.filter (fun r => r.Failed && !r.WantFail) [a] = [a] := by
        simp [List.filter, hc]
      have f2 : List.filter (fun r => !(r.Failed && !r.WantFail)) [a] = [] := by
        simp [List.filter, hc]
      rw [e1, e2, e3, h1, h2, List.filter_append, List.filter_append, f1, f2]
      refine ⟨by simp, by simp, ?_⟩
      simp only [true_iff]
      have : (0 : Int) ≤ ((List.filter (fun r => r.Failed && !r.WantFail) l).length : Int) :=
        Int.natCast_nonneg _
      omega

/-! ## Facts about one worker iteration -/

theorem setupLoop_disabled (cases : List Case) (i : Nat) (st : Local) :
    (setupLoop cases i st).2 = hasDisabled cases := by
  induction cases generalizing i st with
  | nil => rfl
  | cons cas rest ih =>
    unfold setupLoop
    cases hd : cas.Disabled
    · simp only [Bool.false_eq_true, if_false]
      rw [ih]
      simp [hasDisabled, hd]
    · simp [hasDisabled, hd]

theorem setupLoop_calls (cases : List Case) (i : Nat) (st : Local) :
    (setupLoop cases i st).1.calls
      = st.calls ++ (List.range' i (beforeDisabled cases)).map Call.setup := by
  induction cases generalizing i st with
  | nil => simp [setupLoop, beforeDisabled]
  | cons cas rest ih =>
    unfold setupLoop
    cases hd : cas.Disabled
    · simp only [Bool.false_eq_true, if_false]
      rw [ih]
      simp [beforeDisabled, List.takeWhile, hd, List.range'_succ]
    · simp [beforeDisabled, List.takeWhile, hd]

theorem setupLoop_WantFail (cases : List Case) (i : Nat) (st : Local) :
    (setupLoop cases i st).1.run.WantFail
      = (st.run.WantFail || hasWantFail (cases.takeWhile (fun cas => !cas.Disabled))) := by
  induction cases generalizing i st with
  | nil => simp [setupLoop, hasWantFail]
  | cons cas rest ih =>
    unfold setupLoop
    cases hd : cas.Disabled
    · simp only [Bool.false_eq_true, if_false]
      rw [ih]
      cases hw : cas.WantFail <;> simp [hasWantFail, List.takeWhile, hd, hw]
    · simp [hasWantFail, List.takeWhile, hd]

theorem setupLoop_Results (cases : List Case) (i : Nat) (st : Local) :
    (setupLoop cases i st).1.run.Results = st.run.Results ∧
    (setupLoop cases i st).1.run.Failed = st.run.Failed := by
  induction cases generalizing i st with
  | nil => simp [setupLoop]
  | cons cas rest ih =>
    unfold setupLoop
    cases hd : cas.Disabled
    · simp only [Bool.false_eq_true, if_false]
      rw [(ih _ _).1, (ih _ _).2]
      simp
    · simp

theorem takeWhile_enabled_of_not_hasDisabled (cases : List Case) (h : hasDisabled cases = false) :
    cases.takeWhile (fun cas => !cas.Disabled) = cases := by
  induction cases with
  | nil => rfl
  | cons cas rest ih =>
    simp [hasDisabled] at h
    have h2 : hasDisabled rest = false := by
      simp [hasDisabled]; intro x hx; exact h.2 x hx
    simp [List.takeWhile, h.1, ih h2]

theorem firstWantedFail_cons (r : Result) (rs : List Result) :
    firstWantedFail (r :: rs)
      = if (r.Failed && r.WantedFail) = true then 0 else firstWantedFail rs + 1 := by
  simp [firstWantedFail, List.findIdx_cons]

theorem validateAll_length (out : Out) (cases : List Case) (c : Ctx) :
    (validateAll out cases c).length = cases.length := by
  induction cases generalizing c with
  | nil => rfl
  | cons cas rest ih => simp [validateAll, ih]

theorem validateLoop_spec (out : Out) (cases : List Case) (i : Nat) (st : Local) :
    (validateLoop out cases i st).run.Results
      = st.run.Results
        ++ (validateAll out cases st.c).take (firstWantedFail (validateAll out cases st.c) + 1) ∧
    (validateLoop out cases i st).run.Failed
      = (st.run.Failed ||
          ((validateAll out cases st.c).take (firstWantedFail (validateAll out cases st.c))).any
            (fun r => r.Failed && !r.WantedFail)) ∧
    (validateLoop out cases i st).run.WantFail = st.run.WantFail ∧
    (validateLoop out cases i st).calls
      = st.calls ++ (List.range' i
          (min (firstWantedFail (validateAll out cases st.c) + 1) cases.length)).map
            Call.validate := by
  induction cases generalizing i st with
  | nil => simp [validateLoop, validateAll]
  | cons cas rest ih =>
    unfold validateLoop
    simp only [validateAll, firstWantedFail_cons]
    cases hf : (cas.Validator st.c out).2.Failed <;> cases hw : cas.WantFail
    · simp only [Bool.false_and, Bool.false_eq_true, if_false]
      obtain ⟨h1, h2, h3, h4⟩ := ih (i + 1) _
      rw [h1, h2, h3, h4]
      simp [hf, hw, List.range'_succ, Nat.succ_min_succ]
    · simp only [Bool.false_and, Bool.false_eq_true, if_false]
      obtain ⟨h1, h2, h3, h4⟩ := ih (i + 1) _
      rw [h1, h2, h3, h4]
      simp [hf, hw, List.range'_succ, Nat.succ_min_succ]
    · simp only [hf, hw, Bool.and_false, Bool.false_eq_true, if_false, Bool.not_false,
        Bool.and_true, if_true]
      obtain ⟨h1, h2, h3, h4⟩ := ih (i + 1) _
      rw [h1, h2, h3, h4]
      simp [hf, hw, List.range'_succ, Nat.succ_min_succ]
    · simp [hf, hw, List.range'_succ]

/-! ## Facts about lists addressed by position -/

theorem get?_split {α : Type} (l : List α) (i : Nat) (a : α) (h : l.get? i = some a) :
    ∃ l1 l2, l = l1 ++ a :: l2 ∧ (∀ b, l.set i b = l1 ++ b :: l2) ∧ l.eraseIdx i = l1 ++ l2 := by
  induction l generalizing i with
  | nil => simp at h
  | cons x xs ih =>
    cases i with
    | zero =>
      simp at h
      subst h
      exact ⟨[], xs, rfl, fun b => rfl, rfl⟩
    | succ n =>
      simp at h
      obtain ⟨l1, l2, h1, h2, h3⟩ := ih n (by simp [h])
      refine ⟨x :: l1, l2, by simp [h1], fun b => ?_, ?_⟩
      · simp [List.set, h2 b]
      · simp [List.eraseIdx, h3]

theorem held_replicate_receiving (n : Nat) : held (List.replicate n Worker.receiving) = [] := by
  induction n with
  | zero => rfl
  | succ n ih => simp [held, List.replicate_succ]

theorem held_of_allDone (ws : List Worker) (h : allDone ws = true) : held ws = [] := by
  induction ws with
  | nil => rfl
  | cons w ws ih =>
    simp [allDone] at h
    have h2 : allDone ws = true := by simpa [allDone] using h.2
    have := ih h2
    simp [held, h.1] at this ⊢
    exact this

/-! ## Facts about `iterate` and the cartesian product -/

theorem leaves_send (t : Task) (r : List Case) (h : iterate t.1 t.2 = IterAct.send r) :
    leaves t = [r] := by
  obtain ⟨res, params⟩ := t
  cases params with
  | nil =>
    simp [iterate] at h
    simp [leaves, cartesian, h]
  | cons p ps => simp [iterate] at h

theorem leaves_spawn (t : Task) (children : List Task)
    (h : iterate t.1 t.2 = IterAct.spawn children) :
    children.flatMap leaves = leaves t := by
  obtain ⟨res, params⟩ := t
  cases params with
  | nil => simp [iterate] at h
  | cons p ps =>
    simp [iterate] at h
    subst h
    simp [leaves, cartesian, List.flatMap_map, List.map_flatMap, Function.comp_def]

theorem treeWeight_spawn (t : Task) (children : List Task)
    (h : iterate t.1 t.2 = IterAct.spawn children) :
    (children.map (fun c => treeWeight c.2)).sum + 1 = treeWeight t.2 := by
  obtain ⟨res, params⟩ := t
  cases params with
  | nil => simp [iterate] at h
  | cons p ps =>
    simp [iterate] at h
    subst h
    simp [treeWeight, Function.comp_def]
    omega

theorem treeWeight_send (t : Task) (r : List Case) (h : iterate t.1 t.2 = IterAct.send r) :
    treeWeight t.2 = 2 := by
  obtain ⟨res, params⟩ := t
  cases params with
  | nil => rfl
  | cons p ps => simp [iterate] at h

/-! ## Facts about the workers and the goroutines of a state -/

theorem held_set_sending (ws : List Worker) (w : Nat) (run : Run)
    (h : ws.get? w = some Worker.receiving) :
    (held (ws.set w (Worker.sending run))).Perm (run :: held ws) := by
  obtain ⟨l1, l2, h1, h2, _⟩ := get?_split ws w _ h
  rw [h2, h1]
  simp [held, List.filterMap_append]

theorem held_set_idle (ws : List Worker) (w : Nat) (v : Worker)
    (hv : v = Worker.receiving ∨ v = Worker.done)
    (h : ws.get? w = some Worker.receiving) :
    held (ws.set w v) = held ws := by
  obtain ⟨l1, l2, h1, h2, _⟩ := get?_split ws w _ h
  rw [h2, h1]
  rcases hv with rfl | rfl <;> simp [held, List.filterMap_append]

theorem held_set_collected (ws : List Worker) (w : Nat) (run : Run)
    (h : ws.get? w = some (Worker.sending run)) :
    (run :: held (ws.set w Worker.receiving)).Perm (held ws) := by
  obtain ⟨l1, l2, h1, h2, _⟩ := get?_split ws w _ h
  rw [h2, h1]
  simp [held, List.filterMap_append]
  exact List.perm_middle.symm

theorem weight_set (ws : List Worker) (w : Nat) (old new : Worker)
    (h : ws.get? w = some old) :
    ((ws.set w new).map Worker.weight).sum + old.weight
      = (ws.map Worker.weight).sum + new.weight := by
  obtain ⟨l1, l2, h1, h2, _⟩ := get?_split ws w _ h
  rw [h2, h1]
  simp
  omega

theorem flatMap_leaves_eraseIdx (iters : List Task) (i : Nat) (t : Task)
    (h : iters.get? i = some t) :
    (iters.flatMap leaves).Perm (leaves t ++ (iters.eraseIdx i).flatMap leaves) := by
  obtain ⟨l1, l2, h1, _, h3⟩ := get?_split iters i _ h
  rw [h3, h1]
  simp only [List.flatMap_append, List.flatMap_cons]
  exact List.perm_append_comm_assoc _ _ _

theorem weight_eraseIdx (iters : List Task) (i : Nat) (t : Task)
    (h : iters.get? i = some t) :
    ((iters.eraseIdx i).map (fun t => treeWeight t.2)).sum + treeWeight t.2
      = (iters.map (fun t => treeWeight t.2)).sum := by
  obtain ⟨l1, l2, h1, _, h3⟩ := get?_split iters i _ h
  rw [h3, h1]
  simp
  omega

theorem not_done_of_mem_set (ws : List Worker) (w : Nat) (v : Worker) (hv : v ≠ Worker.done)
    (h : ∀ x ∈ ws, x ≠ Worker.done) : ∀ x ∈ ws.set w v, x ≠ Worker.done := by
  intro x hx
  rcases List.mem_or_eq_of_mem_set hx with h1 | h1
  · exact h x h1
  · exact h1 ▸ hv

theorem allDone_iff (ws : List Worker) : allDone ws = true ↔ ∀ x ∈ ws, x = Worker.done := by
  simp [allDone]

theorem not_allDone_of_get? (ws : List Worker) (w : Nat) (v : Worker) (hv : v ≠ Worker.done)
    (h : ws.get? w = some v) : allDone ws = false := by
  cases hd : allDone ws
  · rfl
  · rw [allDone_iff] at hd
    exact absurd (hd v (List.get?_mem h)) hv

theorem allDone_set_done (ws : List Worker) (w : Nat) (h : allDone ws = true) :
    allDone (ws.set w Worker.done) = true := by
  rw [allDone_iff] at h ⊢
  intro x hx
  rcases List.mem_or_eq_of_mem_set hx with h1 | h1
  · exact h x h1
  · exact h1

theorem receive_some (g : GroundGopher) (env : Env) (s s1 : Sys) (w : Nat) (cases : List Case)
    (hs : s.receive g env w cases = some s1) :
    s.workers.get? w = some Worker.receiving ∧
    s1 = { s with
      workers := s.workers.set w
        (match runOf g env cases with
          | none => Worker.receiving
          | some run => Worker.sending run)
      received := s.received ++ [(w, cases)] } := by
  unfold Sys.receive at hs
  split at hs
  · rename_i hw
    simp at hs
    exact ⟨hw, hs.symm⟩
  · simp at hs

/-! ## The invariant holds along every schedule -/

theorem Inv_start (g : GroundGopher) (env : Env) : Inv g env g.start where
  combos := by
    simp [GroundGopher.start, Sys.pending, leaves]
  runs := by
    simp [GroundGopher.start, held, Report.zero]
  report := rfl
  early := fun _ _ _ => rfl
  pool := fun h => absurd rfl (h [] g.vars)
  alive := fun h => absurd rfl h
  idle := fun _ => rfl
  fin := fun h => by simp [GroundGopher.start, Sys.returned] at h

theorem Inv_root (g : GroundGopher) (env : Env) (s s1 : Sys) (w : Nat) (h : Inv g env s)
    (hs : step g env s (Action.root w) = some s1) : Inv g env s1 := by
  simp only [step] at hs
  split at hs
  · rename_i result params hm
    have hst := h.early _ _ hm
    subst hst
    simp only [GroundGopher.start, Main.inIter.injEq] at hm
    obtain ⟨rfl, rfl⟩ := hm
    split at hs
    · simp [Sys.receive, GroundGopher.start] at hs
    · rename_i children hi
      simp only [Option.some.injEq] at hs
      subst hs
      have hl := leaves_spawn ([], g.vars) children hi
      exact {
        combos := by
          simp [GroundGopher.start, Sys.pending, hl]
          simp [leaves]
        runs := by
          simp [GroundGopher.start, held_replicate_receiving, Report.zero]
        report := rfl
        early := fun _ _ hm => by simp at hm
        pool := fun _ => by simp [GroundGopher.start]
        alive := fun _ x hx => by
          simp [GroundGopher.start] at hx
          simp [hx.2]
        idle := fun _ => rfl
        fin := fun hr => by simp [Sys.returned] at hr }
  · simp at hs

theorem not_inIter_of_worker (g : GroundGopher) (env : Env) (s : Sys) (w : Nat) (v : Worker)
    (h : Inv g env s) (hw : s.workers.get? w = some v) :
    ∀ result params, s.main ≠ Main.inIter result params := by
  intro result params hm
  have hst := h.early _ _ hm
  rw [hst] at hw
  simp [GroundGopher.start] at hw

theorem not_inIter_of_iter (g : GroundGopher) (env : Env) (s : Sys) (i : Nat) (t : Task)
    (h : Inv g env s) (hi : s.iters.get? i = some t) :
    ∀ result params, s.main ≠ Main.inIter result params := by
  intro result params hm
  have hst := h.early _ _ hm
  rw [hst] at hi
  simp [GroundGopher.start] at hi

theorem Inv_iter (g : GroundGopher) (env : Env) (s s1 : Sys) (i w : Nat) (h : Inv g env s)
    (hs : step g env s (Action.iter i w) = some s1) : Inv g env s1 := by
  simp only [step] at hs
  split at hs
  · simp at hs
  · rename_i t hg
    have hne : s.iters ≠ [] := by
      intro h0
      rw [h0] at hg
      simp at hg
    have hnot := not_inIter_of_iter g env s i t h hg
    have hperm := flatMap_leaves_eraseIdx s.iters i t hg
    split at hs
    · rename_i r hi
      rw [Option.map_eq_some'] at hs
      obtain ⟨s2, hrec, rfl⟩ := hs
      obtain ⟨hw, rfl⟩ := receive_some g env s s2 w r hrec
      have hl := leaves_send t r hi
      rw [hl] at hperm
      exact {
        combos := by
          have h0 := h.combos
          simp only [Sys.pending] at h0 ⊢
          simp only [List.map_append, List.map_cons, List.map_nil, List.append_assoc]
          refine List.Perm.trans ?_ h0
          refine List.Perm.append_left _ ?_
          refine List.Perm.trans ?_ (List.Perm.append_left _ hperm.symm)
          simp only [List.singleton_append]
          exact List.perm_middle.symm
        runs := by
          have h0 := h.runs
          simp only [List.map_append, List.map_cons, List.map_nil, List.filterMap_append]
          cases hr : runOf g env r with
          | none =>
            simp only [List.filterMap_cons, hr, List.filterMap_nil, List.append_nil]
            rw [held_set_idle _ _ _ (Or.inl rfl) hw]
            exact h0
          | some run =>
            simp only [List.filterMap_cons, hr, List.filterMap_nil]
            refine List.Perm.trans (List.Perm.append_left _ (held_set_sending _ _ run hw)) ?_
            refine List.Perm.trans List.perm_middle ?_
            refine List.Perm.trans (List.Perm.cons run h0) ?_
            exact (List.perm_append_singleton run _).symm
        report := h.report
        early := fun _ _ hm => absurd hm (hnot _ _)
        pool := fun _ => by
          simp only [List.length_set]
          exact h.pool hnot
        alive := fun _ => by
          refine not_done_of_mem_set _ _ _ ?_ (h.alive hne)
          cases runOf g env r <;> simp
        idle := fun he => by
          rw [List.set_eq_nil_iff] at he
          rw [he] at hw
          simp at hw
        fin := fun hr => by
          have h1 := h.fin hr
          rw [not_allDone_of_get? _ w _ (by simp) hw] at h1
          simp at h1 }
    · rename_i children hi
      simp only [Option.some.injEq] at hs
      subst hs
      have hl := leaves_spawn t children hi
      exact {
        combos := by
          have h0 := h.combos
          simp only [Sys.pending] at h0 ⊢
          simp only [List.flatMap_append, hl]
          refine List.Perm.trans ?_ h0
          refine List.Perm.append_left _ (List.Perm.append_left _ ?_)
          exact List.Perm.trans List.perm_append_comm hperm.symm
        runs := h.runs
        report := h.report
        early := fun _ _ hm => absurd hm (hnot _ _)
        pool := h.pool
        alive := fun _ => h.alive hne
        idle := h.idle
        fin := h.fin }

theorem Inv_collect (g : GroundGopher) (env : Env) (s s1 : Sys) (w : Nat) (h : Inv g env s)
    (hs : step g env s (Action.collect w) = some s1) : Inv g env s1 := by
  simp only [step] at hs
  split at hs
  · rename_i run hm hw
    simp only [Option.some.injEq] at hs
    subst hs
    exact {
      combos := by
        have h0 := h.combos
        simp only [Sys.pending] at h0 ⊢
        exact h0
      runs := by
        have h0 := h.runs
        simp only [aggregateStep_Runs, List.append_assoc, List.singleton_append]
        exact List.Perm.trans (List.Perm.append_left _ (held_set_collected _ _ run hw)) h0
      report := by
        simp only [aggregateStep_Runs, aggregate_snoc]
        rw [← h.report]
      early := fun _ _ hm1 => by
        simp only at hm1
        rw [hm] at hm1
        simp at hm1
      pool := fun _ => by
        simp only [List.length_set]
        exact h.pool (not_inIter_of_worker g env s w _ h hw)
      alive := fun hne => not_done_of_mem_set _ _ _ (by simp) (h.alive hne)
      idle := fun he => by
        rw [List.set_eq_nil_iff] at he
        exact h.idle he
      fin := fun hr => by
        simp [Sys.returned, hm] at hr }
  · simp at hs

theorem Inv_exit (g : GroundGopher) (env : Env) (s s1 : Sys) (w : Nat) (h : Inv g env s)
    (hs : step g env s (Action.exit w) = some s1) : Inv g env s1 := by
  simp only [step] at hs
  split at hs
  · simp at hs
  · split at hs
    · rename_i hnot _ _ hi hw
      simp only [Option.some.injEq] at hs
      subst hs
      exact {
        combos := by
          have h0 := h.combos
          simp only [Sys.pending] at h0 ⊢
          exact h0
        runs := by
          have h0 := h.runs
          simp only
          rw [held_set_idle _ _ _ (Or.inr rfl) hw]
          exact h0
        report := h.report
        early := fun _ _ hm1 => absurd hm1 (not_inIter_of_worker g env s w _ h hw _ _)
        pool := fun _ => by
          simp only [List.length_set]
          exact h.pool (not_inIter_of_worker g env s w _ h hw)
        alive := fun hne => absurd hi hne
        idle := fun he => by
          rw [List.set_eq_nil_iff] at he
          exact h.idle he
        fin := fun hr => allDone_set_done _ _ (h.fin hr) }
    · simp at hs

theorem Inv_finish (g : GroundGopher) (env : Env) (s s1 : Sys) (h : Inv g env s)
    (hs : step g env s Action.finish = some s1) : Inv g env s1 := by
  simp only [step] at hs
  split at hs
  · rename_i hm
    split at hs
    · rename_i hd
      simp only [Option.some.injEq] at hs
      subst hs
      exact {
        combos := by
          have h0 := h.combos
          simp only [Sys.pending, hm] at h0 ⊢
          exact h0
        runs := h.runs
        report := h.report
        early := fun _ _ hm1 => by simp at hm1
        pool := fun _ => h.pool (by intro r p hh; rw [hm] at hh; simp at hh)
        alive := h.alive
        idle := h.idle
        fin := fun _ => hd }
    · simp at hs
  · simp at hs

theorem Inv_step (g : GroundGopher) (env : Env) (s s1 : Sys) (a : Action) (h : Inv g env s)
    (hs : step g env s a = some s1) : Inv g env s1 := by
  cases a with
  | root w => exact Inv_root g env s s1 w h hs
  | iter i w => exact Inv_iter g env s s1 i w h hs
  | collect w => exact Inv_collect g env s s1 w h hs
  | exit w => exact Inv_exit g env s s1 w h hs
  | finish => exact Inv_finish g env s s1 h hs

theorem Inv_exec (g : GroundGopher) (env : Env) (sched : List Action) (s s1 : Sys)
    (h : Inv g env s) (hs : exec g env s sched = some s1) : Inv g env s1 := by
  induction sched generalizing s with
  | nil =>
    simp only [exec, Option.some.injEq] at hs
    exact hs ▸ h
  | cons a rest ih =>
    simp only [exec, Option.bind_eq_some] at hs
    obtain ⟨s2, h1, h2⟩ := hs
    exact ih s2 (Inv_step g env s s2 a h h1) h2

/-! ## What a returned state looks like -/

theorem iters_nil_of_returned (g : GroundGopher) (env : Env) (s : Sys) (h : Inv g env s)
    (hn : 1 ≤ g.gophers) (hr : s.returned = true) : s.iters = [] := by
  by_contra hne
  have hd := h.fin hr
  rw [allDone_iff] at hd
  have hlen := h.pool (by
    intro r p hm
    simp [Sys.returned, hm] at hr)
  have hpos : 0 < s.workers.length := by omega
  obtain ⟨x, hx⟩ := List.exists_mem_of_length_pos hpos
  exact h.alive hne x hx (hd x hx)

theorem returned_spec (g : GroundGopher) (env : Env) (s : Sys) (h : Inv g env s)
    (hn : 1 ≤ g.gophers) (hr : s.returned = true) :
    (s.received.map Prod.snd).Perm (cartesian g.vars) ∧
    s.report.Runs.Perm ((cartesian g.vars).filterMap (runOf g env)) := by
  have hi := iters_nil_of_returned g env s h hn hr
  have hc := h.combos
  have hp : s.pending = [] := by
    simp only [Sys.pending, hi]
    cases hm : s.main <;> simp [Sys.returned, hm] at hr ⊢
  rw [hp, List.append_nil] at hc
  refine ⟨hc, ?_⟩
  have hruns := h.runs
  rw [held_of_allDone _ (h.fin hr), List.append_nil] at hruns
  exact hruns.trans (hc.filterMap _)

/-! ## Every move lowers the weight -/

theorem weight_replicate (n : Nat) :
    ((List.replicate n Worker.receiving).map Worker.weight).sum = n := by
  simp [Worker.weight]

theorem weight_receive (g : GroundGopher) (env : Env) (s s1 : Sys) (w : Nat) (cases : List Case)
    (hs : s.receive g env w cases = some s1) :
    s1.main = s.main ∧ s1.iters = s.iters ∧
    (s1.workers.map Worker.weight).sum ≤ (s.workers.map Worker.weight).sum + 1 := by
  obtain ⟨hw, rfl⟩ := receive_some g env s s1 w cases hs
  refine ⟨rfl, rfl, ?_⟩
  have h1 := weight_set s.workers w _
    (match runOf g env cases with
      | none => Worker.receiving
      | some run => Worker.sending run) hw
  simp only
  cases hr : runOf g env cases <;> simp only [hr, Worker.weight] at h1 ⊢ <;> omega

theorem weight_step (g : GroundGopher) (env : Env) (s s1 : Sys) (a : Action)
    (hs : step g env s a = some s1) : s1.weight g < s.weight g := by
  cases a with
  | root w =>
    simp only [step] at hs
    split at hs
    · rename_i result params hm
      split at hs
      · rename_i r hi
        rw [Option.map_eq_some'] at hs
        obtain ⟨s2, hrec, rfl⟩ := hs
        obtain ⟨h1, h2, h3⟩ := weight_receive g env s s2 w r hrec
        have ht := treeWeight_send (result, params) r hi
        simp only [Sys.weight, hm, h2, List.map_append, List.sum_append, weight_replicate]
        simp only at ht
        omega
      · rename_i children hi
        simp only [Option.some.injEq] at hs
        subst hs
        have ht := treeWeight_spawn (result, params) children hi
        simp only [Sys.weight, hm, List.map_append, List.sum_append, weight_replicate]
        simp only at ht
        omega
    · simp at hs
  | iter i w =>
    simp only [step] at hs
    split at hs
    · simp at hs
    · rename_i t hg
      have he := weight_eraseIdx s.iters i t hg
      split at hs
      · rename_i r hi
        rw [Option.map_eq_some'] at hs
        obtain ⟨s2, hrec, rfl⟩ := hs
        obtain ⟨h1, h2, h3⟩ := weight_receive g env s s2 w r hrec
        have ht := treeWeight_send t r hi
        simp only [Sys.weight, h1, h2]
        omega
      · rename_i children hi
        simp only [Option.some.injEq] at hs
        subst hs
        have ht := treeWeight_spawn t children hi
        simp only [Sys.weight, List.map_append, List.sum_append]
        omega
  | collect w =>
    simp only [step] at hs
    split at hs
    · rename_i run hm hw
      simp only [Option.some.injEq] at hs
      subst hs
      have h1 := weight_set s.workers w _ Worker.receiving hw
      simp only [Worker.weight] at h1
      simp only [Sys.weight]
      omega
    · simp at hs
  | exit w =>
    simp only [step] at hs
    split at hs
    · simp at hs
    · split at hs
      · rename_i hw
        simp only [Option.some.injEq] at hs
        subst hs
        have h1 := weight_set s.workers w _ Worker.done hw
        simp only [Worker.weight] at h1
        simp only [Sys.weight]
        omega
      · simp at hs
  | finish =>
    simp only [step] at hs
    split at hs
    · rename_i hm
      split at hs
      · simp only [Option.some.injEq] at hs
        subst hs
        simp only [Sys.weight, hm]
        omega
      · simp at hs
    · simp at hs

theorem weight_exec (g : GroundGopher) (env : Env) (sched : List Action) (s s1 : Sys)
    (hs : exec g env s sched = some s1) : s1.weight g + sched.length ≤ s.weight g := by
  induction sched generalizing s with
  | nil =>
    simp only [exec, Option.some.injEq] at hs
    simp [hs]
  | cons a rest ih =>
    simp only [exec, Option.bind_eq_some] at hs
    obtain ⟨s2, h1, h2⟩ := hs
    have := ih s2 h2
    have := weight_step g env s s2 a h1
    simp only [List.length_cons]
    omega

/-! ## No deadlock and termination, for at least one Variable and one worker -/

theorem worker_cases (ws : List Worker) :
    (∃ w run, ws.get? w = some (Worker.sending run)) ∨
    (∃ w, ws.get? w = some Worker.receiving) ∨ allDone ws = true := by
  induction ws with
  | nil => exact Or.inr (Or.inr rfl)
  | cons x xs ih =>
    cases x with
    | receiving => exact Or.inr (Or.inl ⟨0, rfl⟩)
    | sending run => exact Or.inl ⟨0, run, rfl⟩
    | done =>
      rcases ih with ⟨w, run, h⟩ | ⟨w, h⟩ | h
      · exact Or.inl ⟨w + 1, run, by simpa using h⟩
      · exact Or.inr (Or.inl ⟨w + 1, by simpa using h⟩)
      · exact Or.inr (Or.inr (by simpa [allDone] using h))

theorem progress (g : GroundGopher) (env : Env) (s : Sys) (h : Inv g env s)
    (hv : g.vars ≠ []) (hn : 1 ≤ g.gophers) (hr : s.returned = false) :
    ∃ a s1, step g env s a = some s1 := by
  cases hm : s.main with
  | inIter result params =>
    have hst := h.early _ _ hm
    subst hst
    simp only [GroundGopher.start, Main.inIter.injEq] at hm
    obtain ⟨rfl, rfl⟩ := hm
    cases hvs : g.vars with
    | nil => exact absurd hvs hv
    | cons p ps =>
      refine ⟨Action.root 0, ?_⟩
      simp [step, GroundGopher.start, hvs, iterate]
  | returned => simp [Sys.returned, hm] at hr
  | draining =>
    rcases worker_cases s.workers with ⟨w, run, hw⟩ | ⟨w, hw⟩ | hd
    · refine ⟨Action.collect w, ?_⟩
      rw [List.get?_eq_getElem?] at hw
      simp [step, hm, hw]
    · rw [List.get?_eq_getElem?] at hw
      cases hi : s.iters with
      | nil =>
        refine ⟨Action.exit w, ?_⟩
        simp [step, hm, hw, hi]
      | cons t rest =>
        refine ⟨Action.iter 0 w, ?_⟩
        cases hit : iterate t.1 t.2 with
        | send r => simp [step, hi, hit, Sys.receive, hw]
        | spawn children => simp [step, hi, hit]
    · cases hi : s.iters with
      | nil =>
        refine ⟨Action.finish, ?_⟩
        simp [step, hm, hd]
      | cons t rest =>
        exfalso
        rw [allDone_iff] at hd
        have hlen := h.pool (by
          intro r p hh
          rw [hm] at hh
          simp at hh)
        have hpos : 0 < s.workers.length := by omega
        obtain ⟨x, hx⟩ := List.exists_mem_of_length_pos hpos
        exact h.alive (by simp [hi]) x hx (hd x hx)

theorem exec_append (g : GroundGopher) (env : Env) (s : Sys) (xs ys : List Action) :
    exec g env s (xs ++ ys) = (exec g env s xs).bind (fun s1 => exec g env s1 ys) := by
  induction xs generalizing s with
  | nil => simp [exec]
  | cons a rest ih =>
    simp only [List.cons_append, exec]
    cases step g env s a with
    | none => simp
    | some s2 => simp [ih]

theorem terminates (g : GroundGopher) (env : Env) (hv : g.vars ≠ []) (hn : 1 ≤ g.gophers)
    (n : Nat) : ∀ s, s.weight g ≤ n → Inv g env s →
      ∃ rest s1, exec g env s rest = some s1 ∧ s1.returned = true := by
  induction n with
  | zero =>
    intro s hw h
    cases hr : s.returned
    · obtain ⟨a, s1, hs⟩ := progress g env s h hv hn hr
      have := weight_step g env s s1 a hs
      omega
    · exact ⟨[], s, rfl, hr⟩
  | succ n ih =>
    intro s hw h
    cases hr : s.returned
    · obtain ⟨a, s1, hs⟩ := progress g env s h hv hn hr
      have hlt := weight_step g env s s1 a hs
      obtain ⟨rest, s2, h1, h2⟩ := ih s1 (by omega) (Inv_step g env s s1 a h hs)
      exact ⟨a :: rest, s2, by simp [exec, hs, h1], h2⟩
    · exact ⟨[], s, rfl, hr⟩

theorem Run_eq_some (g : GroundGopher) (env : Env) (sched : List Action) (r : Report) :
    g.Run env sched = some r ↔
      ∃ s, exec g env g.start sched = some s ∧ s.returned = true ∧ s.report = r := by
  unfold GroundGopher.Run
  cases he : exec g env g.start sched with
  | none => simp
  | some s =>
    cases hm : s.main <;> simp [Sys.returned, hm]

theorem step_start_no_vars (g : GroundGopher) (env : Env) (a : Action) (hv : g.vars = []) :
    step g env g.start a = none := by
  cases a <;> simp [step, GroundGopher.start, hv, iterate, Sys.receive]

theorem exec_start_no_vars (g : GroundGopher) (env : Env) (sched : List Action)
    (hv : g.vars = []) (s : Sys) (hs : exec g env g.start sched = some s) :
    sched = [] ∧ s = g.start := by
  cases sched with
  | nil =>
    simp only [exec, Option.some.injEq] at hs
    exact ⟨rfl, hs.symm⟩
  | cons a rest =>
    simp [exec, step_start_no_vars g env a hv] at hs

/-! ## The outcome of one worker iteration -/

theorem beforeDisabled_of_enabled (cases : List Case) (h : hasDisabled cases = false) :
    beforeDisabled cases = cases.length := by
  simp [beforeDisabled, takeWhile_enabled_of_not_hasDisabled cases h]

theorem beforeDisabled_lt (cases : List Case) (h : hasDisabled cases = true) :
    beforeDisabled cases < cases.length := by
  induction cases with
  | nil => simp [hasDisabled] at h
  | cons cas rest ih =>
    cases hd : cas.Disabled
    · have h2 : hasDisabled rest = true := by
        simpa [hasDisabled, hd] using h
      have := ih h2
      simp only [beforeDisabled] at this
      simp [beforeDisabled, List.takeWhile, hd]
      omega
    · simp [beforeDisabled, List.takeWhile, hd]

theorem prepared_calls (g : GroundGopher) (cases : List Case) :
    (prepared g cases).calls = (List.range (beforeDisabled cases)).map Call.setup := by
  simp [prepared, setupLoop_calls, Local.fresh, List.range_eq_range']

theorem prepared_run (g : GroundGopher) (cases : List Case) :
    (prepared g cases).run.Results = [] ∧ (prepared g cases).run.Failed = false ∧
    (prepared g cases).run.WantFail
      = hasWantFail (cases.takeWhile (fun cas => !cas.Disabled)) := by
  refine ⟨?_, ?_, ?_⟩
  · rw [prepared, (setupLoop_Results cases 0 (Local.fresh g)).1]
    rfl
  · rw [prepared, (setupLoop_Results cases 0 (Local.fresh g)).2]
    rfl
  · simp [prepared, setupLoop_WantFail, Local.fresh]

theorem requestWorker_of_disabled (g : GroundGopher) (env : Env) (cases : List Case)
    (hd : hasDisabled cases = true) :
    requestWorker g env cases = (none, (List.range (beforeDisabled cases)).map Call.setup) := by
  have h1 := setupLoop_disabled cases 0 (Local.fresh g)
  rw [hd] at h1
  have h2 := prepared_calls g cases
  simp only [prepared] at h2
  simp only [requestWorker, h1, if_true, h2]

theorem requestWorker_of_error (g : GroundGopher) (env : Env) (cases : List Case)
    (hd : hasDisabled cases = false) (hx : snapshot g env cases = none) :
    requestWorker g env cases
      = (none, (List.range cases.length).map Call.setup ++ [Call.request]) := by
  have h1 := setupLoop_disabled cases 0 (Local.fresh g)
  rw [hd] at h1
  have h2 := prepared_calls g cases
  rw [beforeDisabled_of_enabled cases hd] at h2
  simp only [snapshot, prepared] at hx h2
  simp only [requestWorker, h1, Bool.false_eq_true, if_false, hx, h2]

theorem validateCalls_append (xs ys : List Call) :
    validateCalls (xs ++ ys) = validateCalls xs ++ validateCalls ys := by
  simp [validateCalls, List.filterMap_append]

theorem validateCalls_map_setup (l : List Nat) : validateCalls (l.map Call.setup) = [] := by
  induction l with
  | nil => rfl
  | cons x xs ih => simp [validateCalls]

theorem validateCalls_map_validate (l : List Nat) : validateCalls (l.map Call.validate) = l := by
  induction l with
  | nil => rfl
  | cons x xs ih => simpa [validateCalls] using ih

theorem setupCalls_map_validate (l : List Nat) : setupCalls (l.map Call.validate) = [] := by
  induction l with
  | nil => rfl
  | cons x xs ih => simp [setupCalls]

theorem requestWorker_of_completed (g : GroundGopher) (env : Env) (cases : List Case) (out : Out)
    (hd : hasDisabled cases = false) (hx : snapshot g env cases = some out) :
    ∃ run calls, requestWorker g env cases = (some run, calls) ∧
      run.Results
        = (allResults g cases out).take (firstWantedFail (allResults g cases out) + 1) ∧
      run.Failed
        = ((allResults g cases out).take (firstWantedFail (allResults g cases out))).any
            (fun r => r.Failed && !r.WantedFail) ∧
      run.WantFail = hasWantFail cases ∧
      calls = (List.range cases.length).map Call.setup ++ Call.request ::
        (List.range (min (firstWantedFail (allResults g cases out) + 1) cases.length)).map
          Call.validate := by
  have h1 := setupLoop_disabled cases 0 (Local.fresh g)
  rw [hd] at h1
  obtain ⟨p1, p2, p3⟩ := prepared_run g cases
  have p4 := prepared_calls g cases
  rw [beforeDisabled_of_enabled cases hd] at p4
  rw [takeWhile_enabled_of_not_hasDisabled cases hd] at p3
  simp only [snapshot] at hx
  simp only [prepared] at hx p1 p2 p3 p4
  simp only [requestWorker, h1, Bool.false_eq_true, if_false, hx]
  refine ⟨_, _, rfl, ?_, ?_, ?_, ?_⟩
  · rw [(validateLoop_spec out cases 0 _).1]
    simp [p1, allResults, prepared]
  · rw [(validateLoop_spec out cases 0 _).2.1]
    simp [p2, allResults, prepared]
  · rw [(validateLoop_spec out cases 0 _).2.2.1]
    simp [p3]
  · rw [(validateLoop_spec out cases 0 _).2.2.2]
    simp [p4, allResults, prepared, List.range_eq_range']

theorem runOf_isSome_of_enabled (g : GroundGopher) (env : Env) (ht : NoTransportError env)
    (cases : List Case) : (runOf g env cases).isSome = !hasDisabled cases := by
  cases hd : hasDisabled cases
  · obtain ⟨out, hx⟩ := ht (outbound env (prepared g cases)) (userAgent env (prepared g cases))
    obtain ⟨run, calls, h, _⟩ := requestWorker_of_completed g env cases out hd hx
    simp [runOf, h]
  · simp [runOf, requestWorker_of_disabled g env cases hd]

/-! ## `Run` as a whole -/

theorem length_filterMap_eq_filter {α β : Type} (f : α → Option β) (l : List α) :
    (l.filterMap f).length = (l.filter (fun x => (f x).isSome)).length := by
  induction l with
  | nil => rfl
  | cons x xs ih =>
    cases h : f x <;> simp [List.filterMap_cons, List.filter_cons, h, ih]

theorem Run_runs (g : GroundGopher) (env : Env) (hn : 1 ≤ g.gophers) (sched : List Action)
    (r : Report) (h : g.Run env sched = some r) :
    r.Runs.Perm ((cartesian g.vars).filterMap (runOf g env)) ∧ r = aggregate r.Runs := by
  rw [Run_eq_some] at h
  obtain ⟨s, he, hr, rfl⟩ := h
  have hinv := Inv_exec g env sched g.start s (Inv_start g env) he
  exact ⟨(returned_spec g env s hinv hn hr).2, hinv.report⟩

theorem Run_extends (g : GroundGopher) (env : Env) (hv : g.vars ≠ []) (hn : 1 ≤ g.gophers)
    (sched : List Action) (s : Sys) (h : exec g env g.start sched = some s) :
    ∃ rest r, g.Run env (sched ++ rest) = some r := by
  have hinv := Inv_exec g env sched g.start s (Inv_start g env) h
  obtain ⟨rest, s1, h1, h2⟩ := terminates g env hv hn (s.weight g) s (Nat.le_refl _) hinv
  refine ⟨rest, s1.report, ?_⟩
  rw [Run_eq_some]
  exact ⟨s1, by simp [exec_append, h, h1], h2, rfl⟩

/-- The cartesian product has `n1 * ... * nk` elements (one for no Variable,
none as soon as a Variable has no Case). -/
theorem cartesian_length (vars : List Variable) :
    (cartesian vars).length = (vars.map (fun v => v.Cases.length)).prod := by
  induction vars with
  | nil => rfl
  | cons p rest ih =>
    simp only [cartesian, List.map_cons, List.prod_cons, ← ih]
    generalize p.Cases = cs
    induction cs with
    | nil => simp
    | cons c cs ihc =>
      simp only [List.flatMap_cons, List.length_append, List.length_map, List.length_cons, ihc]
      ring

/-- For at least one Variable, a pool of at least one worker and no transport
error: no schedule is longer than the weight of the start state, every schedule
can be continued until `Run` returns, and every Report `Run` returns counts
exactly the Combinations of the cartesian product without a disabled Case. -/
theorem Run_returns_report (g : GroundGopher) (env : Env) (hv : g.vars ≠ [])
    (hn : 1 ≤ g.gophers) (ht : NoTransportError env) :
    (∀ sched s, exec g env g.start sched = some s →
      sched.length ≤ g.start.weight g ∧ ∃ rest r, g.Run env (sched ++ rest) = some r) ∧
    (∀ sched r, g.Run env sched = some r →
      r.Amount = (((cartesian g.vars).filter (fun c => !hasDisabled c)).length : Int) ∧
      r.Runs.Perm ((cartesian g.vars).filterMap (runOf g env))) := by
  refine ⟨fun sched s h => ⟨?_, Run_extends g env hv hn sched s h⟩, fun sched r h => ?_⟩
  · have := weight_exec g env sched g.start s h
    omega
  · obtain ⟨h1, h2⟩ := Run_runs g env hn sched r h
    refine ⟨?_, h1⟩
    rw [h2, aggregate_Amount, h1.length_eq, length_filterMap_eq_filter]
    simp only [runOf_isSome_of_enabled g env ht]

/-- The example of the specification: Variables with 2 and 3 enabled Cases and
a pool of 2 workers give a Report with `Amount = 6`. -/
theorem Run_two_by_three :
    ((sampleGopher twoByThree 2).Run sampleEnv
      [Action.root 0, Action.iter 0 0, Action.iter 0 0, Action.iter 0 0, Action.collect 0,
       Action.iter 0 1, Action.collect 1, Action.iter 0 0, Action.iter 0 1, Action.collect 1,
       Action.collect 0, Action.iter 0 0, Action.collect 0, Action.iter 0 1, Action.collect 1,
       Action.exit 0, Action.exit 1, Action.finish]).map (fun r => r.Amount) = some 6 := by
  rfl

/-! ## Facts used for the claims on validation -/

theorem reached_failure_before_stop (rs : List Result) (i : Nat) (r : Result)
    (hi : rs.get? i = some r) (hle : i ≤ firstWantedFail rs)
    (hf : r.Failed = true) (hw : r.WantedFail = false) :
    (rs.take (firstWantedFail rs)).any (fun r => r.Failed && !r.WantedFail) = true := by
  have hlt : i < firstWantedFail rs := by
    rcases Nat.lt_or_eq_of_le hle with h | h
    · exact h
    · exfalso
      rw [List.get?_eq_getElem?] at hi
      obtain ⟨hil, hir⟩ := List.getElem?_eq_some_iff.mp hi
      have hj : firstWantedFail rs < rs.length := h ▸ hil
      have hp := List.findIdx_getElem (w := hj)
      have he : rs[firstWantedFail rs] = r := by
        simp only [← h]
        exact hir
      simp only [firstWantedFail] at he
      rw [he] at hp
      simp [hw] at hp
  rw [List.any_eq_true]
  refine ⟨r, ?_, by simp [hf, hw]⟩
  have hm := List.getElem?_take_of_lt (l := rs) hlt
  rw [List.get?_eq_getElem?] at hi
  rw [hi] at hm
  exact List.getElem?_mem hm

theorem take_firstWantedFail_succ (rs : List Result) (h : ¬ firstWantedFail rs < rs.length) :
    rs.take (firstWantedFail rs + 1) = rs := by
  apply List.take_of_length_le
  omega

theorem runOf_some_cases (g : GroundGopher) (env : Env) (cases : List Case) (run : Run)
    (h : runOf g env cases = some run) :
    hasDisabled cases = false ∧ ∃ out, snapshot g env cases = some out := by
  cases hd : hasDisabled cases
  · refine ⟨rfl, ?_⟩
    cases hx : snapshot g env cases with
    | none =>
      rw [runOf, requestWorker_of_error g env cases hd hx] at h
      simp at h
    | some out => exact ⟨out, rfl⟩
  · rw [runOf, requestWorker_of_disabled g env cases hd] at h
    simp at h

theorem aggregate_sum (runs : List Run) :
    (aggregate runs).Fails + (aggregate runs).Successes = (aggregate runs).Amount := by
  induction runs using List.reverseRecOn with
  | nil => rfl
  | append_singleton l a ih =>
    rw [aggregate_snoc, aggregateStep_Amount]
    cases hc : (a.Failed && !a.WantFail)
    · obtain ⟨e1, e2, _⟩ := aggregateStep_counted_success (aggregate l) a hc
      rw [e1, e2]
      omega
    · obtain ⟨e1, e2, _⟩ := aggregateStep_counted_fail (aggregate l) a hc
      rw [e1, e2]
      omega

/-! ## The claims -/

/-- C1, at the failing input of no Variables: on entry to `Run` the empty
Combination is pending and nothing has been received, and no move of any
goroutine is enabled, whatever the pool size: the direct call of `iterate`
inside `Iter` is blocked at its send and no worker exists yet to receive. So
the empty Combination is never received and the channel is never closed. -/
theorem Iter_without_variables_is_stuck (n : Int) (env : Env) (a : Action)
    (sched : List Action) :
    (sampleGopher [] n).start.pending = [[]] ∧
    (sampleGopher [] n).start.received = [] ∧
    (sampleGopher [] n).start.workers = [] ∧
    exec (sampleGopher [] n) env (sampleGopher [] n).start (a :: sched) = none := by
  refine ⟨rfl, rfl, rfl, ?_⟩
  simp [exec, step_start_no_vars (sampleGopher [] n) env a rfl]

/-- C2, at the failing input of no Variables: under no schedule does `Run`
return a Report, whatever the pool size and the environment. -/
theorem Run_without_variables_never_returns (n : Int) (env : Env) (sched : List Action) :
    (sampleGopher [] n).Run env sched = none := by
  cases h : (sampleGopher [] n).Run env sched with
  | none => rfl
  | some r =>
    rw [Run_eq_some] at h
    obtain ⟨s, he, hr, _⟩ := h
    obtain ⟨_, rfl⟩ := exec_start_no_vars (sampleGopher [] n) env sched rfl s he
    simp [Sys.returned, GroundGopher.start] at hr

/-- C3: for a Combination without a disabled Case whose request completes with
snapshot `out`, the worker sends a Run; the validators invoked are those of
the positions `0 .. len(Results) - 1`, in order; if `j` is the position of the
first Case marked wantFail whose validator returns a failed Result, the Results
are those of Cases `0 .. j` (`j + 1` entries), otherwise there is one Result
per Case; and `Run.Failed` is decided by the Results before position `j` alone. -/
theorem requestWorker_results_stop_at_wanted_failure (g : GroundGopher) (env : Env)
    (cases : List Case) (out : Out)
    (hd : hasDisabled cases = false) (hx : snapshot g env cases = some out) :
    ∃ run calls, requestWorker g env cases = (some run, calls) ∧
      validateCalls calls = List.range run.Results.length ∧
      (firstWantedFail (allResults g cases out) < cases.length →
        run.Results
          = (allResults g cases out).take (firstWantedFail (allResults g cases out) + 1) ∧
        run.Results.length = firstWantedFail (allResults g cases out) + 1) ∧
      (¬ firstWantedFail (allResults g cases out) < cases.length →
        run.Results = allResults g cases out ∧ run.Results.length = cases.length) ∧
      run.Failed
        = ((allResults g cases out).take (firstWantedFail (allResults g cases out))).any
            (fun r => r.Failed && !r.WantedFail) := by
  obtain ⟨run, calls, h, h1, h2, _, h4⟩ := requestWorker_of_completed g env cases out hd hx
  have hlen : (allResults g cases out).length = cases.length := by
    simp [allResults, validateAll_length]
  refine ⟨run, calls, h, ?_, ?_, ?_, h2⟩
  · rw [h4, h1]
    simp only [validateCalls_append, validateCalls_map_setup, List.nil_append]
    have : validateCalls (Call.request :: (List.range
        (min (firstWantedFail (allResults g cases out) + 1) cases.length)).map Call.validate)
        = validateCalls ((List.range
        (min (firstWantedFail (allResults g cases out) + 1) cases.length)).map Call.validate) := by
      simp [validateCalls]
    rw [this, validateCalls_map_validate, List.length_take, hlen]
  · intro hj
    refine ⟨h1, ?_⟩
    rw [h1, List.length_take, hlen]
    omega
  · intro hj
    rw [← hlen] at hj
    rw [h1, take_firstWantedFail_succ _ hj]
    exact ⟨rfl, hlen⟩

/-- C3, checked on a passing Case, a Case that wants to fail and fails, and a
failing Case after it. -/
theorem requestWorker_results_stop_at_wanted_failure_witness :
    ∃ run calls,
      requestWorker (sampleGopher [] 1) sampleEnv wantedFailureSecond = (some run, calls) ∧
      validateCalls calls = List.range run.Results.length ∧
      (firstWantedFail (allResults (sampleGopher [] 1) wantedFailureSecond sampleOut)
          < wantedFailureSecond.length →
        run.Results
          = (allResults (sampleGopher [] 1) wantedFailureSecond sampleOut).take
              (firstWantedFail (allResults (sampleGopher [] 1) wantedFailureSecond sampleOut) + 1) ∧
        run.Results.length
          = firstWantedFail (allResults (sampleGopher [] 1) wantedFailureSecond sampleOut) + 1) ∧
      (¬ firstWantedFail (allResults (sampleGopher [] 1) wantedFailureSecond sampleOut)
          < wantedFailureSecond.length →
        run.Results = allResults (sampleGopher [] 1) wantedFailureSecond sampleOut ∧
        run.Results.length = wantedFailureSecond.length) ∧
      run.Failed
        = ((allResults (sampleGopher [] 1) wantedFailureSecond sampleOut).take
            (firstWantedFail (allResults (sampleGopher [] 1) wantedFailureSecond sampleOut))).any
            (fun r => r.Failed && !r.WantedFail) :=
  requestWorker_results_stop_at_wanted_failure (sampleGopher [] 1) sampleEnv wantedFailureSecond
    sampleOut (by rfl) (by rfl)

/-- C4 as stated fails: the first Case of `failureWithWantFail` is not marked
wantFail and its validator returns a failed Result, the Run has `Failed = true`,
and yet aggregating it leaves `Fails` at 0 and `Failed` false and counts a
success, because another Case of the Combination is marked wantFail. -/
theorem failure_with_wantFail_not_counted :
    (failureWithWantFail.map (fun cas => cas.WantFail)) = [false, true] ∧
    ((allResults (sampleGopher [] 1) failureWithWantFail sampleOut).map (fun r => r.Failed))
      = [true, false] ∧
    runOf (sampleGopher [] 1) sampleEnv failureWithWantFail = some failureWithWantFailRun ∧
    failureWithWantFailRun.Failed = true ∧
    (aggregateStep Report.zero failureWithWantFailRun).Fails = 0 ∧
    (aggregateStep Report.zero failureWithWantFailRun).Failed = false ∧
    (aggregateStep Report.zero failureWithWantFailRun).Successes = 1 := by
  refine ⟨by rfl, by rfl, by rfl, by rfl, by rfl, by rfl, by rfl⟩

/-- C4, amended: for a Combination without a disabled Case whose request
completes, if a Case not marked wantFail has its validator invoked (no earlier
Case marked wantFail has failed) and the validator returns a failed Result,
then the Run has `Failed = true`, whatever the later Cases do. Aggregating the
Run increments `Fails` and sets `Report.Failed` when no Case of the Combination
is marked wantFail; when some Case is, `Successes` is incremented instead. -/
theorem nonWantFail_failure_marks_run (g : GroundGopher) (env : Env) (cases : List Case)
    (out : Out) (i : Nat) (r : Result)
    (hd : hasDisabled cases = false) (hx : snapshot g env cases = some out)
    (hi : (allResults g cases out).get? i = some r)
    (hreach : i ≤ firstWantedFail (allResults g cases out))
    (hf : r.Failed = true) (hw : r.WantedFail = false) :
    ∃ run, runOf g env cases = some run ∧ run.Failed = true ∧
      ∀ report,
        (hasWantFail cases = false →
          (aggregateStep report run).Fails = report.Fails + 1 ∧
          (aggregateStep report run).Successes = report.Successes ∧
          (aggregateStep report run).Failed = true) ∧
        (hasWantFail cases = true →
          (aggregateStep report run).Fails = report.Fails ∧
          (aggregateStep report run).Successes = report.Successes + 1 ∧
          (aggregateStep report run).Failed = report.Failed) := by
  obtain ⟨run, calls, h, _, h2, h3, _⟩ := requestWorker_of_completed g env cases out hd hx
  have hfail : run.Failed = true := by
    rw [h2]
    exact reached_failure_before_stop _ i r hi hreach hf hw
  refine ⟨run, by simp [runOf, h], hfail, fun report => ⟨fun hno => ?_, fun hyes => ?_⟩⟩
  · exact aggregateStep_counted_fail report run (by simp [hfail, h3, hno])
  · exact aggregateStep_counted_success report run (by simp [h3, hyes])

/-- C4, amended, checked on a single failing Case not marked wantFail. -/
theorem nonWantFail_failure_marks_run_witness :
    ∃ run, runOf (sampleGopher [] 1) sampleEnv plainFailure = some run ∧ run.Failed = true ∧
      ∀ report,
        (hasWantFail plainFailure = false →
          (aggregateStep report run).Fails = report.Fails + 1 ∧
          (aggregateStep report run).Successes = report.Successes ∧
          (aggregateStep report run).Failed = true) ∧
        (hasWantFail plainFailure = true →
          (aggregateStep report run).Fails = report.Fails ∧
          (aggregateStep report run).Successes = report.Successes + 1 ∧
          (aggregateStep report run).Failed = report.Failed) :=
  nonWantFail_failure_marks_run (sampleGopher [] 1) sampleEnv plainFailure sampleOut 0
    { Name := "get", Failed := true, WantedFail := false, Reason := "unexpected status" }
    (by rfl) (by rfl) (by rfl) (by decide) (by rfl) (by rfl)

/-- C5: after draining any finite sequence of Runs, `Fails` is the number of
Runs with `Failed && !WantFail`, `Successes` the number of all other Runs,
`Failed` holds exactly when `Fails > 0`, `Runs` is the sequence received, in
order, and `TotalTime` is the int64 sum of the durations. -/
theorem aggregate_report (runs : List Run) :
    (aggregate runs).Fails = ((runs.filter (fun r => r.Failed && !r.WantFail)).length : Int) ∧
    (aggregate runs).Successes
      = ((runs.filter (fun r => !(r.Failed && !r.WantFail))).length : Int) ∧
    ((aggregate runs).Failed = true ↔ 0 < (aggregate runs).Fails) ∧
    (aggregate runs).Runs = runs ∧
    (aggregate runs).TotalTime = wrapInt64 ((runs.map Run.Duration).sum) := by
  obtain ⟨h1, h2, h3⟩ := aggregate_counts runs
  exact ⟨h1, h2, h3, aggregate_Runs runs, aggregate_TotalTime runs⟩

/-- C6: after every step of the aggregation loop, that is for the Report built
from the first `k` Runs received, for every `k`, `Fails + Successes = Amount`
and `Amount` is the number of Runs in `Report.Runs`. -/
theorem aggregate_counts_add_up (runs : List Run) (k : Nat) :
    (aggregate (runs.take k)).Fails + (aggregate (runs.take k)).Successes
      = (aggregate (runs.take k)).Amount ∧
    (aggregate (runs.take k)).Amount = ((aggregate (runs.take k)).Runs.length : Int) := by
  refine ⟨aggregate_sum _, ?_⟩
  rw [aggregate_Amount, aggregate_Runs]

/-- C7, at the failing input of the zero Report (which is also the Report of a
drain loop that received no Run): `Summary` panics with a division by zero. -/
theorem Summary_of_zero_report_panics (durString : Int → String) :
    Report.Summary durString Report.zero
      = Except.error "runtime error: integer divide by zero" ∧
    Report.Summary durString (aggregate [])
      = Except.error "runtime error: integer divide by zero" := by
  exact ⟨rfl, rfl⟩

/-- The average `Summary` reports for a Report that is not failed and has a
non-zero `Amount` is `TotalTime / Amount` by int64 division. -/
theorem Summary_average (durString : Int → String) (r : Report) (hf : r.Failed = false)
    (ha : r.Amount ≠ 0) :
    Report.Summary durString r
      = Except.ok ("Completed " ++ toString r.Amount ++ " requests in " ++ durString r.TotalTime
          ++ ", average time: " ++ durString (wrapInt64 (Int.tdiv r.TotalTime r.Amount))) := by
  simp [Report.Summary, hf, ha]

/-- With a pool size of zero or less `Run` can only return the zero Report. -/
theorem Run_without_workers (g : GroundGopher) (env : Env) (hn : g.gophers ≤ 0)
    (sched : List Action) (r : Report) (h : g.Run env sched = some r) : r = Report.zero := by
  rw [Run_eq_some] at h
  obtain ⟨s, he, hr, rfl⟩ := h
  have hinv := Inv_exec g env sched g.start s (Inv_start g env) he
  have hlen := hinv.pool (by
    intro result params hm
    simp [Sys.returned, hm] at hr)
  have hws : s.workers = [] := by
    apply List.eq_nil_of_length_eq_zero
    omega
  have hruns := hinv.runs
  rw [hinv.idle hws, hws] at hruns
  simp [held] at hruns
  rw [hinv.report, hruns]
  rfl

/-- C8 as stated fails, in two ways. At pool size 0: for one Variable with one
enabled Case `Run` returns a Report with one Run under a pool of one worker,
and the zero Report, without any Run, under a pool of no worker. And at pool
sizes 1 and 2, when the two executions do not measure the same duration for
the request (5 ns and 7 ns): the one Run of the one Report differs from the
one Run of the other in its `Duration`. -/
theorem Run_runs_differ :
    ((WithWorkers 1 (sampleGopher oneVariable 1)).Run sampleEnv
        [Action.root 0, Action.iter 0 0, Action.collect 0, Action.exit 0, Action.finish]
      = some (aggregate [oneVariableRun]) ∧
     (WithWorkers 0 (sampleGopher oneVariable 1)).Run sampleEnv [Action.root 0, Action.finish]
      = some Report.zero ∧
     ¬ (aggregate [oneVariableRun]).Runs.Perm Report.zero.Runs) ∧
    ((WithWorkers 2 (sampleGopher oneVariable 1)).Run slowEnv
        [Action.root 0, Action.iter 0 1, Action.collect 1, Action.exit 0, Action.exit 1,
         Action.finish]
      = some (aggregate [oneVariableSlowRun]) ∧
     ¬ (aggregate [oneVariableRun]).Runs.Perm (aggregate [oneVariableSlowRun]).Runs) := by
  refine ⟨⟨by rfl, by rfl, ?_⟩, by rfl, ?_⟩
  · intro hp
    have := hp.length_eq
    simp [aggregate_Runs, Report.zero] at this
  · intro hp
    rw [aggregate_Runs, aggregate_Runs, List.singleton_perm_singleton] at hp
    exact absurd hp (by decide)

/-- C8, amended to pool sizes of at least 1 and to two executions in which
every Combination of the cartesian product yields the same Run (or none): any
Report `Run` returns with pool size 1 in the one and any Report it returns with
pool size `n` in the other hold the same Runs up to order; in every returned
state the Combinations received by the workers are, up to order, exactly the
cartesian product, each received once by one worker; and with at least one
Variable every schedule is bounded in length and can be continued until `Run`
returns. -/
theorem Run_same_runs_for_pool_sizes (g : GroundGopher) (env1 envN : Env) (n : Int)
    (hn : 1 ≤ n)
    (henv : ∀ cases ∈ cartesian g.vars, runOf g env1 cases = runOf g envN cases) :
    (∀ sched1 schedN r1 rN,
      (WithWorkers 1 g).Run env1 sched1 = some r1 →
      (WithWorkers n g).Run envN schedN = some rN → r1.Runs.Perm rN.Runs) ∧
    (∀ sched s, exec (WithWorkers n g) envN (WithWorkers n g).start sched = some s →
      s.returned = true → (s.received.map Prod.snd).Perm (cartesian g.vars)) ∧
    (g.vars ≠ [] →
      ∀ sched s, exec (WithWorkers n g) envN (WithWorkers n g).start sched = some s →
        sched.length ≤ (WithWorkers n g).start.weight (WithWorkers n g) ∧
        ∃ rest r, (WithWorkers n g).Run envN (sched ++ rest) = some r) := by
  refine ⟨fun sched1 schedN r1 rN h1 h2 => ?_, fun sched s he hr => ?_, fun hv sched s he => ?_⟩
  · have p1 : r1.Runs.Perm ((cartesian g.vars).filterMap (runOf g env1)) :=
      (Run_runs (WithWorkers 1 g) env1 (by simp [WithWorkers]) sched1 r1 h1).1
    have p2 : rN.Runs.Perm ((cartesian g.vars).filterMap (runOf g envN)) :=
      (Run_runs (WithWorkers n g) envN (by simpa [WithWorkers] using hn) schedN rN h2).1
    rw [List.filterMap_congr henv] at p1
    exact p1.trans p2.symm
  · have hinv := Inv_exec _ envN sched _ s (Inv_start (WithWorkers n g) envN) he
    exact (returned_spec (WithWorkers n g) envN s hinv (by simpa [WithWorkers] using hn) hr).1
  · refine ⟨?_,
      Run_extends (WithWorkers n g) envN hv (by simpa [WithWorkers] using hn) sched s he⟩
    have := weight_exec (WithWorkers n g) envN sched _ s he
    omega

set_option maxRecDepth 100000 in
/-- C8, amended, checked on Variables of sizes 2 and 3 with pools of 1 and of
2 workers, under schedules that receive the Runs in different orders and in
two executions that differ in the random identifier only. -/
theorem Run_same_runs_for_pool_sizes_witness :
    (1 : Int) ≤ 2 ∧
    (∀ cases ∈ cartesian (sampleGopher twoByThree 10).vars,
      runOf (sampleGopher twoByThree 10) sampleEnv cases
        = runOf (sampleGopher twoByThree 10) otherIdEnv cases) ∧
    (aggregate ([["a1", "m1"], ["a1", "m2"], ["a1", "m3"], ["a2", "m1"], ["a2", "m2"],
        ["a2", "m3"]].map passedRun)).Runs.Perm
      (aggregate ([["a1", "m1"], ["a2", "m1"], ["a2", "m2"], ["a2", "m3"], ["a1", "m3"],
        ["a1", "m2"]].map passedRun)).Runs :=
  ⟨by decide, by decide,
    (Run_same_runs_for_pool_sizes (sampleGopher twoByThree 10) sampleEnv otherIdEnv 2
      (by decide) (by decide)).1
      [Action.root 0, Action.iter 0 0, Action.iter 0 0, Action.iter 0 0, Action.collect 0,
       Action.iter 0 0, Action.collect 0, Action.iter 0 0, Action.collect 0, Action.iter 0 0,
       Action.collect 0, Action.iter 0 0, Action.collect 0, Action.iter 0 0, Action.collect 0,
       Action.exit 0, Action.finish]
      [Action.root 0, Action.iter 1 0, Action.iter 0 0, Action.iter 3 1, Action.iter 0 0,
       Action.collect 1, Action.collect 0, Action.iter 0 1, Action.collect 1, Action.iter 0 0,
       Action.collect 0, Action.iter 0 0, Action.iter 0 1, Action.collect 1, Action.collect 0,
       Action.exit 0, Action.exit 1, Action.finish]
      (aggregate ([["a1", "m1"], ["a1", "m2"], ["a1", "m3"], ["a2", "m1"], ["a2", "m2"],
        ["a2", "m3"]].map passedRun))
      (aggregate ([["a1", "m1"], ["a2", "m1"], ["a2", "m2"], ["a2", "m3"], ["a1", "m3"],
        ["a1", "m2"]].map passedRun))
      (by decide) (by decide)⟩

/-- C9 as stated fails: `disabledSecond` contains a disabled Case, the worker
abandons it, and yet the setup of its first Case has been invoked. -/
theorem setup_invoked_before_disabled_case :
    hasDisabled disabledSecond = true ∧
    requestWorker (sampleGopher [] 1) sampleEnv disabledSecond = (none, [Call.setup 0]) ∧
    setupCalls (requestWorker (sampleGopher [] 1) sampleEnv disabledSecond).2 ≠ [] := by
  refine ⟨by rfl, by rfl, by decide⟩

/-- C9, amended: for a Combination that contains a disabled Case the worker
sends no Run, issues no request, invokes no validator, and invokes the setup
of exactly the Cases that precede the first disabled Case, in order (not that
of the first disabled Case nor of any Case after it); for a Combination
without a disabled Case it invokes the setup of every Case, in order, then
issues the request, and no setup after that. -/
theorem requestWorker_setup_calls (g : GroundGopher) (env : Env) (cases : List Case) :
    (hasDisabled cases = true →
      requestWorker g env cases
        = (none, (List.range (beforeDisabled cases)).map Call.setup) ∧
      beforeDisabled cases < cases.length) ∧
    (hasDisabled cases = false →
      ∃ rest, (requestWorker g env cases).2
          = (List.range cases.length).map Call.setup ++ Call.request :: rest ∧
        setupCalls rest = []) := by
  refine ⟨fun hd => ⟨requestWorker_of_disabled g env cases hd, beforeDisabled_lt cases hd⟩,
    fun hd => ?_⟩
  cases hx : snapshot g env cases with
  | none =>
    exact ⟨[], by rw [requestWorker_of_error g env cases hd hx], rfl⟩
  | some out =>
    obtain ⟨run, calls, h, _, _, _, h4⟩ := requestWorker_of_completed g env cases out hd hx
    exact ⟨_, by rw [h, h4], setupCalls_map_validate _⟩

/-- C9, amended, checked on a Combination whose second Case is disabled and on
one without a disabled Case. -/
theorem requestWorker_setup_calls_witness :
    (requestWorker (sampleGopher [] 1) sampleEnv disabledSecond
        = (none, (List.range (beforeDisabled disabledSecond)).map Call.setup) ∧
      beforeDisabled disabledSecond < disabledSecond.length) ∧
    (∃ rest, (requestWorker (sampleGopher [] 1) sampleEnv plainFailure).2
        = (List.range plainFailure.length).map Call.setup ++ Call.request :: rest ∧
      setupCalls rest = []) :=
  ⟨(requestWorker_setup_calls (sampleGopher [] 1) sampleEnv disabledSecond).1 (by rfl),
   (requestWorker_setup_calls (sampleGopher [] 1) sampleEnv plainFailure).2 (by rfl)⟩

/-- C10: a Run produced from a Combination with at least one Case marked
wantFail has `WantFail = true`, and aggregating it increments `Successes` and
leaves `Fails` and `Report.Failed` as they were, whatever the validators
returned. -/
theorem wantFail_run_counts_as_success (g : GroundGopher) (env : Env) (cases : List Case)
    (run : Run) (h : runOf g env cases = some run) (hw : hasWantFail cases = true) :
    run.WantFail = true ∧
    ∀ report,
      (aggregateStep report run).Successes = report.Successes + 1 ∧
      (aggregateStep report run).Fails = report.Fails ∧
      (aggregateStep report run).Failed = report.Failed := by
  obtain ⟨hd, out, hx⟩ := runOf_some_cases g env cases run h
  obtain ⟨run1, calls, h1, _, _, h3, _⟩ := requestWorker_of_completed g env cases out hd hx
  have he : run = run1 := by
    rw [runOf, h1] at h
    exact (Option.some.inj h).symm
  subst he
  have hwf : run.WantFail = true := by rw [h3, hw]
  refine ⟨hwf, fun report => ?_⟩
  obtain ⟨e1, e2, e3⟩ := aggregateStep_counted_success report run (by simp [hwf])
  exact ⟨e2, e1, e3⟩

/-- C10, checked on a failing Case not marked wantFail followed by a passing
Case marked wantFail. -/
theorem wantFail_run_counts_as_success_witness :
    failureWithWantFailRun.WantFail = true ∧
    ∀ report,
      (aggregateStep report failureWithWantFailRun).Successes = report.Successes + 1 ∧
      (aggregateStep report failureWithWantFailRun).Fails = report.Fails ∧
      (aggregateStep report failureWithWantFailRun).Failed = report.Failed :=
  wantFail_run_counts_as_success (sampleGopher [] 1) sampleEnv failureWithWantFail
    failureWithWantFailRun (by rfl) (by rfl)

end gg
